import Mathlib

/-!
Formal model of the pysme grid-convergence module (`grid_conv.py`) and the
stochastic-integration term algebra (`integrate.py`).

One-dimensional numpy arrays are modelled as `List ℝ`.  The slices `xs[::2]`
and `xs[1::2]` are modelled by `evens` and `odds`.  Elementwise arithmetic on
arrays follows numpy broadcasting: an operation between arrays of equal length
acts pointwise, an operation between a length-one array and another array
broadcasts the single element, and any other length combination raises a
`ValueError`, modelled by `Option.none`.  Vectorised states are `Fin d → ℝ`
and operator matrices are `Fin d → Fin d → ℝ`.
-/

namespace PySME

/-- The numpy slice `xs[::2]`: elements at even indices. -/
def evens {α : Type} : List α → List α
  | [] => []
  | [x] => [x]
  | x :: _ :: xs => x :: evens xs

/-- The numpy slice `xs[1::2]`: elements at odd indices. -/
def odds {α : Type} (xs : List α) : List α :=
  evens xs.tail

theorem length_evens {α : Type} : ∀ xs : List α, (evens xs).length = (xs.length + 1) / 2
  | [] => by simp [evens]
  | [_] => by simp [evens]
  | _ :: _ :: xs => by
    have ih := length_evens xs
    simp only [evens, List.length_cons, ih]
    omega

theorem length_odds {α : Type} (xs : List α) : (odds xs).length = xs.length / 2 := by
  cases xs with
  | nil => simp [odds, evens]
  | cons x r =>
    simp only [odds, List.tail_cons, length_evens, List.length_cons]

theorem getElem?_evens {α : Type} : ∀ (xs : List α) (i : ℕ), (evens xs)[i]? = xs[2 * i]?
  | [], i => by simp [evens]
  | [x], 0 => by simp [evens]
  | [x], i + 1 => by
    have h1 : (evens [x])[i + 1]? = none := by simp [evens]
    have h2 : ([x])[2 * (i + 1)]? = none := by
      rw [List.getElem?_eq_none]
      simp only [List.length_cons, List.length_nil]
      omega
    rw [h1, h2]
  | x :: y :: zs, 0 => by simp [evens]
  | x :: y :: zs, i + 1 => by
    have ih := getElem?_evens zs i
    have h2 : 2 * (i + 1) = 2 * i + 1 + 1 := by omega
    simp only [evens, h2, List.getElem?_cons_succ]
    exact ih

theorem getElem?_odds {α : Type} (xs : List α) (i : ℕ) : (odds xs)[i]? = xs[2 * i + 1]? := by
  cases xs with
  | nil => simp [odds, evens]
  | cons x r =>
    simp only [odds, List.tail_cons, getElem?_evens, List.getElem?_cons_succ]

/-- Numpy broadcasting addition of two 1-D arrays.  `none` models the
`ValueError` numpy raises on incompatible shapes. -/
def npAdd (xs ys : List ℝ) : Option (List ℝ) :=
  if xs.length = ys.length then some (List.zipWith (fun a b => a + b) xs ys)
  else if xs.length = 1 then some (ys.map (fun b => xs.headI + b))
  else if ys.length = 1 then some (xs.map (fun a => a + ys.headI))
  else none

/-- Numpy broadcasting subtraction of two 1-D arrays. -/
def npSub (xs ys : List ℝ) : Option (List ℝ) :=
  if xs.length = ys.length then some (List.zipWith (fun a b => a - b) xs ys)
  else if xs.length = 1 then some (ys.map (fun b => xs.headI - b))
  else if ys.length = 1 then some (xs.map (fun a => a - ys.headI))
  else none

/-- `grid_conv.double_increments`: coarsen an evenly spaced grid and its
standard-normal increment samples to doubled time intervals.  The returned
triple carries the new times, the new `U1s`, and (when `U2s` was supplied)
the new `U2s`; `none` models a numpy shape error during the recombination. -/
noncomputable def double_increments (times U1s : List ℝ) (U2s : Option (List ℝ)) :
    Option (List ℝ × List ℝ × Option (List ℝ)) := do
  let new_times := evens times
  let even_U1s := evens U1s
  let odd_U1s := odds U1s
  let sum1 ← npAdd even_U1s odd_U1s
  let new_U1s := sum1.map (fun x => x / Real.sqrt 2)
  match U2s with
  | none => some (new_times, new_U1s, none)
  | some u2 =>
    let even_U2s := evens u2
    let odd_U2s := odds u2
    let diff1 ← npSub even_U1s odd_U1s
    let scaled := diff1.map (fun x => Real.sqrt 3 * x)
    let acc1 ← npAdd scaled even_U2s
    let acc2 ← npAdd acc1 odd_U2s
    let new_U2s := acc2.map (fun x => x / (2 * Real.sqrt 2))
    some (new_times, new_U1s, some new_U2s)

/-- Closed form of the coarsened `U1s` produced by `double_increments` when
the fine grid has an even number of intervals. -/
noncomputable def cU1 (U1s : List ℝ) : List ℝ :=
  (List.zipWith (fun a b => a + b) (evens U1s) (odds U1s)).map (fun x => x / Real.sqrt 2)

/-- Closed form of the coarsened `U2s` produced by `double_increments` when
the fine grid has an even number of intervals. -/
noncomputable def cU2 (U1s U2s : List ℝ) : List ℝ :=
  (List.zipWith (fun a b => a + b)
    (List.zipWith (fun a b => a + b)
      ((List.zipWith (fun a b => a - b) (evens U1s) (odds U1s)).map
        (fun x => Real.sqrt 3 * x))
      (evens U2s))
    (odds U2s)).map (fun x => x / (2 * Real.sqrt 2))

theorem length_cU1 (U1s : List ℝ) (h : U1s.length % 2 = 0) :
    (cU1 U1s).length = U1s.length / 2 := by
  simp only [cU1, List.length_map, List.length_zipWith, length_evens, length_odds]
  omega

theorem length_cU2 (U1s U2s : List ℝ) (h : U1s.length % 2 = 0)
    (h2 : U2s.length = U1s.length) :
    (cU2 U1s U2s).length = U1s.length / 2 := by
  simp only [cU2, List.length_map, List.length_zipWith, length_evens, length_odds, h2]
  omega

theorem double_increments_eq (times U1s U2s : List ℝ)
    (hlen : U2s.length = U1s.length) (hev : U1s.length % 2 = 0) :
    double_increments times U1s (some U2s) =
      some (evens times, cU1 U1s, some (cU2 U1s U2s)) := by
  have he1 : (evens U1s).length = U1s.length / 2 := by
    rw [length_evens]; omega
  have ho1 : (odds U1s).length = U1s.length / 2 := length_odds U1s
  have he2 : (evens U2s).length = U1s.length / 2 := by
    rw [length_evens, hlen]; omega
  have ho2 : (odds U2s).length = U1s.length / 2 := by
    rw [length_odds, hlen]
  have hadd1 : npAdd (evens U1s) (odds U1s) =
      some (List.zipWith (fun a b => a + b) (evens U1s) (odds U1s)) := by
    rw [npAdd, if_pos (he1.trans ho1.symm)]
  have hsub1 : npSub (evens U1s) (odds U1s) =
      some (List.zipWith (fun a b => a - b) (evens U1s) (odds U1s)) := by
    rw [npSub, if_pos (he1.trans ho1.symm)]
  have hadd2 : npAdd
      ((List.zipWith (fun a b => a - b) (evens U1s) (odds U1s)).map
        (fun x => Real.sqrt 3 * x)) (evens U2s) =
      some (List.zipWith (fun a b => a + b)
        ((List.zipWith (fun a b => a - b) (evens U1s) (odds U1s)).map
          (fun x => Real.sqrt 3 * x)) (evens U2s)) := by
    rw [npAdd, if_pos]
    simp only [List.length_map, List.length_zipWith, he1, ho1, he2, min_self]
  have hadd3 : npAdd
      (List.zipWith (fun a b => a + b)
        ((List.zipWith (fun a b => a - b) (evens U1s) (odds U1s)).map
          (fun x => Real.sqrt 3 * x)) (evens U2s)) (odds U2s) =
      some (List.zipWith (fun a b => a + b)
        (List.zipWith (fun a b => a + b)
          ((List.zipWith (fun a b => a - b) (evens U1s) (odds U1s)).map
            (fun x => Real.sqrt 3 * x)) (evens U2s)) (odds U2s)) := by
    rw [npAdd, if_pos]
    simp only [List.length_map, List.length_zipWith, he1, ho1, he2, ho2, min_self]
  simp [double_increments, hadd1, hsub1, hadd2, hadd3, cU1, cU2]

/-- The time grids handled by `grid_conv` are evenly spaced. -/
def evenlySpaced (ts : List ℝ) : Prop :=
  ∃ t0 dt : ℝ, ts = (List.range ts.length).map (fun i => t0 + i * dt)

theorem getElem?_of_getD {l : List ℝ} {i : ℕ} (h : i < l.length) :
    l[i]? = some (l.getD i 0) := by
  rw [List.getElem?_eq_getElem h, List.getD_eq_getElem?_getD, List.getElem?_eq_getElem h,
    Option.getD_some]

theorem getElem?_cU1 {U1s : List ℝ} {i : ℕ} {a b : ℝ}
    (ha : U1s[2 * i]? = some a) (hb : U1s[2 * i + 1]? = some b) :
    (cU1 U1s)[i]? = some ((a + b) / Real.sqrt 2) := by
  simp only [cU1, List.getElem?_map, List.getElem?_zipWith', getElem?_evens, getElem?_odds,
    ha, hb, Option.map_some', Option.some_bind]

theorem getElem?_cU2 {U1s U2s : List ℝ} {i : ℕ} {a b c d : ℝ}
    (ha : U1s[2 * i]? = some a) (hb : U1s[2 * i + 1]? = some b)
    (hc : U2s[2 * i]? = some c) (hd : U2s[2 * i + 1]? = some d) :
    (cU2 U1s U2s)[i]? = some ((Real.sqrt 3 * (a - b) + c + d) / (2 * Real.sqrt 2)) := by
  simp only [cU2, List.getElem?_map, List.getElem?_zipWith', getElem?_evens, getElem?_odds,
    ha, hb, hc, hd, Option.map_some', Option.some_bind]

/-- `grid_conv.l1_norm`: entrywise absolute-value sum, `np.sum(np.abs(vec))`. -/
noncomputable def l1_norm {d : ℕ} (vec : Fin d → ℝ) : ℝ := ∑ i, |vec i|

/-- `np.log` on a 1-element value: a positive argument yields the natural
logarithm, a non-positive argument yields a non-finite value (`-inf` or
`nan`), modelled by `none`. -/
noncomputable def npLog (x : ℝ) : Option ℝ :=
  if 0 < x then some (Real.log x) else none

theorem npLog_pos {x : ℝ} (h : 0 < x) : npLog x = some (Real.log x) := by
  rw [npLog, if_pos h]

/-- `grid_conv.calc_rate` on explicitly supplied noise: derive the doubled and
quadrupled grids and noise by applying `double_increments` twice, run the
integrator at the three resolutions from the same initial state, and form
`(log ‖ρ₄(T) − ρ₂(T)‖₁ − log ‖ρ₂(T) − ρ(T)‖₁) / log 2` from the final states.
`none` models a numpy shape error, an IndexError on an empty trajectory, or a
non-finite value coming out of `np.log`. -/
noncomputable def calc_rate {d : ℕ}
    (integrate : (Fin d → ℝ) → List ℝ → List ℝ → List ℝ → List (Fin d → ℝ))
    (rho_0 : Fin d → ℝ) (times U1s U2s : List ℝ) : Option ℝ := do
  let (times_2, U1s_2, oU2s_2) ← double_increments times U1s (some U2s)
  let U2s_2 ← oU2s_2
  let (times_4, U1s_4, oU2s_4) ← double_increments times_2 U1s_2 (some U2s_2)
  let U2s_4 ← oU2s_4
  let rhos := integrate rho_0 times U1s U2s
  let rhos_2 := integrate rho_0 times_2 U1s_2 U2s_2
  let rhos_4 := integrate rho_0 times_4 U1s_4 U2s_4
  let rho_last ← rhos.getLast?
  let rho_2_last ← rhos_2.getLast?
  let rho_4_last ← rhos_4.getLast?
  let log_a ← npLog (l1_norm (rho_4_last - rho_2_last))
  let log_b ← npLog (l1_norm (rho_2_last - rho_last))
  some ((log_a - log_b) / Real.log 2)

/-- The evenly spaced grid `0, 1, ..., k - 1`, used for concrete instances. -/
def gridT (k : ℕ) : List ℝ := (List.range k).map (fun i => (0 : ℝ) + i * 1)

/-- A degenerate test integrator: the trajectory is one state that records
which of the three grid resolutions was passed in. -/
def wInt : (Fin 1 → ℝ) → List ℝ → List ℝ → List ℝ → List (Fin 1 → ℝ) :=
  fun _ ts _ _ => [fun _ => if ts.length = 3 then (1 : ℝ) else 0]

/-- A constant test integrator: zero drift and diffusion, so every resolution
produces the same final state. -/
def constInt : (Fin 1 → ℝ) → List ℝ → List ℝ → List ℝ → List (Fin 1 → ℝ) :=
  fun r _ _ _ => [r]

/-- Claim C1: for an evenly spaced time grid with `n + 1` points (`n` even) and
noise sequences `U1s`, `U2s` of length `n`, `double_increments` returns the
times at every other index (a grid of length `n / 2 + 1`) and coarsened noise
sequences of length `n / 2` obeying, at every pair index `i`,
`U1'_i = (U1_{2i} + U1_{2i+1}) / √2` and
`U2'_i = (√3 * (U1_{2i} - U1_{2i+1}) + U2_{2i} + U2_{2i+1}) / (2 * √2)`. -/
theorem double_increments_correct {n : ℕ} (times U1s U2s : List ℝ)
    (_hsp : evenlySpaced times) (ht : times.length = n + 1)
    (h1 : U1s.length = n) (h2 : U2s.length = n) (hn : n % 2 = 0) :
    double_increments times U1s (some U2s) =
      some (evens times, cU1 U1s, some (cU2 U1s U2s)) ∧
    (∀ i : ℕ, (evens times)[i]? = times[2 * i]?) ∧
    (evens times).length = n / 2 + 1 ∧
    (cU1 U1s).length = n / 2 ∧ (cU2 U1s U2s).length = n / 2 ∧
    ∀ i : ℕ, i < n / 2 →
      (cU1 U1s).getD i 0 = (U1s.getD (2 * i) 0 + U1s.getD (2 * i + 1) 0) / Real.sqrt 2 ∧
      (cU2 U1s U2s).getD i 0 =
        (Real.sqrt 3 * (U1s.getD (2 * i) 0 - U1s.getD (2 * i + 1) 0)
          + U2s.getD (2 * i) 0 + U2s.getD (2 * i + 1) 0) / (2 * Real.sqrt 2) := by
  refine ⟨double_increments_eq times U1s U2s (h2.trans h1.symm) (by omega),
    fun i => getElem?_evens times i, by rw [length_evens, ht]; omega,
    by rw [length_cU1 U1s (by omega), h1],
    by rw [length_cU2 U1s U2s (by omega) (h2.trans h1.symm), h1],
    fun i hi => ?_⟩
  have h2i : 2 * i < U1s.length := by omega
  have h2i1 : 2 * i + 1 < U1s.length := by omega
  have h2j : 2 * i < U2s.length := by omega
  have h2j1 : 2 * i + 1 < U2s.length := by omega
  constructor
  · have h := getElem?_cU1 (getElem?_of_getD h2i) (getElem?_of_getD h2i1)
    rw [List.getD_eq_getElem?_getD, h, Option.getD_some]
  · have h := getElem?_cU2 (getElem?_of_getD h2i) (getElem?_of_getD h2i1)
      (getElem?_of_getD h2j) (getElem?_of_getD h2j1)
    rw [List.getD_eq_getElem?_getD, h, Option.getD_some]

/-- Witness for C1 on the concrete grid `[0, 1, 2]` with `U1s = [1, 2]` and
`U2s = [3, 4]`. -/
theorem double_increments_correct_witness :
    evenlySpaced ((List.range 3).map (fun i => (0 : ℝ) + i * 1)) ∧ 2 % 2 = 0 ∧
    double_increments ((List.range 3).map (fun i => (0 : ℝ) + i * 1)) [1, 2] (some [3, 4]) =
      some (evens ((List.range 3).map (fun i => (0 : ℝ) + i * 1)), cU1 [1, 2],
        some (cU2 [1, 2] [3, 4])) :=
  ⟨⟨0, 1, rfl⟩, rfl,
    (double_increments_correct (n := 2) ((List.range 3).map (fun i => (0 : ℝ) + i * 1))
      [1, 2] [3, 4] ⟨0, 1, rfl⟩ rfl rfl rfl rfl).1⟩

/-- Claim C7: on an evenly spaced grid whose number of intervals is divisible
by 4, applying `double_increments` twice reproduces exactly the original time
points sampled at stride 4. -/
theorem double_increments_twice_stride4 {n : ℕ} (times U1s U2s : List ℝ)
    (_hsp : evenlySpaced times) (ht : times.length = n + 1)
    (h1 : U1s.length = n) (h2 : U2s.length = n) (hn : n % 4 = 0) :
    double_increments times U1s (some U2s) =
      some (evens times, cU1 U1s, some (cU2 U1s U2s)) ∧
    double_increments (evens times) (cU1 U1s) (some (cU2 U1s U2s)) =
      some (evens (evens times), cU1 (cU1 U1s), some (cU2 (cU1 U1s) (cU2 U1s U2s))) ∧
    (evens (evens times)).length = n / 4 + 1 ∧
    ∀ i : ℕ, (evens (evens times))[i]? = times[4 * i]? := by
  have hc1 : (cU1 U1s).length = n / 2 := by rw [length_cU1 U1s (by omega), h1]
  have hc2 : (cU2 U1s U2s).length = n / 2 := by
    rw [length_cU2 U1s U2s (by omega) (h2.trans h1.symm), h1]
  refine ⟨double_increments_eq times U1s U2s (h2.trans h1.symm) (by omega),
    double_increments_eq _ _ _ (hc2.trans hc1.symm) (by rw [hc1]; omega), ?_, fun i => ?_⟩
  · rw [length_evens, length_evens, ht]; omega
  · rw [getElem?_evens, getElem?_evens]
    have h4 : 2 * (2 * i) = 4 * i := by omega
    rw [h4]

/-- Witness for C7 on the concrete grid `[0, 1, 2, 3, 4]` with four intervals. -/
theorem double_increments_twice_stride4_witness :
    evenlySpaced ((List.range 5).map (fun i => (0 : ℝ) + i * 1)) ∧ 4 % 4 = 0 ∧
    ∀ i : ℕ, (evens (evens ((List.range 5).map (fun i => (0 : ℝ) + i * 1))))[i]? =
      ((List.range 5).map (fun i => (0 : ℝ) + i * 1))[4 * i]? :=
  ⟨⟨0, 1, rfl⟩, rfl,
    (double_increments_twice_stride4 (n := 4) ((List.range 5).map (fun i => (0 : ℝ) + i * 1))
      [0, 0, 0, 0] [0, 0, 0, 0] ⟨0, 1, rfl⟩ rfl rfl rfl rfl).2.2.2⟩

/-- Claim C2: for every integrator, initial state, grid with a number of
intervals divisible by 4 and supplied noise, `calc_rate` applies the §4.1
coarsening twice, runs the integrator at the three resolutions from the same
initial state, and returns
`(log ‖ρ₄(T) − ρ₂(T)‖₁ − log ‖ρ₂(T) − ρ(T)‖₁) / log 2` where `ρ(T)`, `ρ₂(T)`,
`ρ₄(T)` are the final trajectory states and `‖·‖₁` is `l1_norm`. -/
theorem calc_rate_correct {d n : ℕ}
    (integrate : (Fin d → ℝ) → List ℝ → List ℝ → List ℝ → List (Fin d → ℝ))
    (rho_0 : Fin d → ℝ) (times U1s U2s : List ℝ) (rf rf2 rf4 : Fin d → ℝ)
    (_ht : times.length = n + 1) (h1 : U1s.length = n) (h2 : U2s.length = n)
    (hn : n % 4 = 0)
    (hrf : (integrate rho_0 times U1s U2s).getLast? = some rf)
    (hrf2 : (integrate rho_0 (evens times) (cU1 U1s) (cU2 U1s U2s)).getLast? = some rf2)
    (hrf4 : (integrate rho_0 (evens (evens times)) (cU1 (cU1 U1s))
      (cU2 (cU1 U1s) (cU2 U1s U2s))).getLast? = some rf4)
    (hp4 : 0 < l1_norm (rf4 - rf2)) (hp2 : 0 < l1_norm (rf2 - rf)) :
    calc_rate integrate rho_0 times U1s U2s =
      some ((Real.log (l1_norm (rf4 - rf2)) - Real.log (l1_norm (rf2 - rf))) /
        Real.log 2) := by
  have hc1 : (cU1 U1s).length = n / 2 := by rw [length_cU1 U1s (by omega), h1]
  have hc2 : (cU2 U1s U2s).length = n / 2 := by
    rw [length_cU2 U1s U2s (by omega) (h2.trans h1.symm), h1]
  have hd1 := double_increments_eq times U1s U2s (h2.trans h1.symm) (by omega)
  have hd2 := double_increments_eq (evens times) (cU1 U1s) (cU2 U1s U2s)
    (hc2.trans hc1.symm) (by rw [hc1]; omega)
  simp only [calc_rate, hd1, hd2, Option.bind_eq_bind, Option.some_bind, hrf, hrf2, hrf4,
    npLog_pos hp4, npLog_pos hp2]

/-- Witness for C2 on the grid `[0, 1, 2, 3, 4]`, zero noise, and the test
integrator `wInt` whose three final states are `0`, `1` and `0` again. -/
theorem calc_rate_correct_witness :
    (gridT 5).length = 4 + 1 ∧ 4 % 4 = 0 ∧
    calc_rate wInt (fun _ => 0) (gridT 5) [0, 0, 0, 0] [0, 0, 0, 0] =
      some ((Real.log (l1_norm (((fun _ => 0) : Fin 1 → ℝ) - (fun _ => 1))) -
        Real.log (l1_norm (((fun _ => 1) : Fin 1 → ℝ) - (fun _ => 0)))) / Real.log 2) :=
  ⟨rfl, rfl,
    calc_rate_correct wInt (fun _ => 0) (gridT 5) [0, 0, 0, 0] [0, 0, 0, 0]
      (fun _ => 0) (fun _ => 1) (fun _ => 0) rfl rfl rfl rfl rfl rfl rfl
      (by simp [l1_norm, Fin.sum_univ_one, Pi.sub_apply, zero_sub, abs_neg, abs_one,
        zero_lt_one])
      (by simp [l1_norm, Fin.sum_univ_one, Pi.sub_apply, sub_zero, abs_one, zero_lt_one])⟩

/-- Claim C8 (amended): `calc_rate` performs no degeneracy detection.  When
the final states of two successive resolutions coincide (e.g. zero diffusion),
`np.log` receives `0`, and the non-finite result is silently propagated into
the returned rate; no error is raised. -/
theorem calc_rate_degenerate_silent {d n : ℕ}
    (integrate : (Fin d → ℝ) → List ℝ → List ℝ → List ℝ → List (Fin d → ℝ))
    (rho_0 : Fin d → ℝ) (times U1s U2s : List ℝ) (rf2 rf4 : Fin d → ℝ)
    (_ht : times.length = n + 1) (h1 : U1s.length = n) (h2 : U2s.length = n)
    (hn : n % 4 = 0)
    (hrf2 : (integrate rho_0 (evens times) (cU1 U1s) (cU2 U1s U2s)).getLast? = some rf2)
    (hrf4 : (integrate rho_0 (evens (evens times)) (cU1 (cU1 U1s))
      (cU2 (cU1 U1s) (cU2 U1s U2s))).getLast? = some rf4)
    (hdeg : rf4 = rf2) :
    calc_rate integrate rho_0 times U1s U2s = none := by
  have hc1 : (cU1 U1s).length = n / 2 := by rw [length_cU1 U1s (by omega), h1]
  have hc2 : (cU2 U1s U2s).length = n / 2 := by
    rw [length_cU2 U1s U2s (by omega) (h2.trans h1.symm), h1]
  have hd1 := double_increments_eq times U1s U2s (h2.trans h1.symm) (by omega)
  have hd2 := double_increments_eq (evens times) (cU1 U1s) (cU2 U1s U2s)
    (hc2.trans hc1.symm) (by rw [hc1]; omega)
  have hnorm : l1_norm (rf4 - rf2) = 0 := by
    rw [hdeg, sub_self]
    simp [l1_norm]
  have hlog : npLog (l1_norm (rf4 - rf2)) = none := by
    rw [hnorm, npLog, if_neg (lt_irrefl 0)]
  cases hlast : (integrate rho_0 times U1s U2s).getLast? with
  | none => simp [calc_rate, hd1, hd2, hlast]
  | some rf =>
    simp only [calc_rate, hd1, hd2, Option.bind_eq_bind, Option.some_bind, hlast, hrf2,
      hrf4, hlog, Option.none_bind]

/-- Witness for the amended C8: a constant integrator (zero diffusion) on the
grid `[0, 1, 2, 3, 4]` makes all final states coincide, and `calc_rate`
silently returns the non-finite marker. -/
theorem calc_rate_degenerate_silent_witness :
    (gridT 5).length = 4 + 1 ∧ 4 % 4 = 0 ∧
    calc_rate constInt (fun _ => (1 : ℝ)) (gridT 5) [0, 0, 0, 0] [0, 0, 0, 0] = none :=
  ⟨rfl, rfl,
    calc_rate_degenerate_silent constInt (fun _ => (1 : ℝ)) (gridT 5)
      [0, 0, 0, 0] [0, 0, 0, 0] (fun _ => (1 : ℝ)) (fun _ => (1 : ℝ))
      rfl rfl rfl rfl rfl rfl rfl⟩

/-- Counterexample to C8 as stated: on degenerate inputs (a constant
integrator, so successive final states coincide) `calc_rate` does not report
an error object — no `NumericalDegeneracyError` exists anywhere in the code —
but produces the silently propagated non-finite value (`none` in this model,
`nan` in numpy). -/
theorem calc_rate_degenerate_counterexample :
    calc_rate constInt (fun _ => (1 : ℝ)) (gridT 5) [0, 0, 0, 0] [0, 0, 0, 0] = none := by
  have hd1 := double_increments_eq (gridT 5) [0, 0, 0, 0] [0, 0, 0, 0] rfl rfl
  have hd2 := double_increments_eq (evens (gridT 5)) (cU1 [0, 0, 0, 0])
    (cU2 [0, 0, 0, 0] [0, 0, 0, 0])
    (by rw [length_cU2 [0, 0, 0, 0] [0, 0, 0, 0] rfl rfl, length_cU1 [0, 0, 0, 0] rfl])
    (by rw [length_cU1 [0, 0, 0, 0] rfl]; decide)
  have hnorm : l1_norm ((fun _ => (1 : ℝ)) - (fun _ => (1 : ℝ)) : Fin 1 → ℝ) = 0 := by
    rw [sub_self]
    simp [l1_norm]
  have hlog : npLog (l1_norm ((fun _ => (1 : ℝ)) - (fun _ => (1 : ℝ)) : Fin 1 → ℝ)) =
      none := by
    rw [hnorm, npLog, if_neg (lt_irrefl 0)]
  simp only [calc_rate, constInt, hd1, hd2, Option.bind_eq_bind, Option.some_bind,
    List.getLast?_singleton, hlog, Option.none_bind]

/-- Claim C6 (amended): on an odd number of fine intervals (length ≥ 5) the
even- and odd-index slices of the noise have different lengths, and numpy
broadcasting fails with a `ValueError` (`none`); the trailing element is not
silently dropped. -/
theorem double_increments_odd_fails (times U1s : List ℝ) (U2s : Option (List ℝ))
    (hodd : U1s.length % 2 = 1) (h5 : 5 ≤ U1s.length) :
    double_increments times U1s U2s = none := by
  have he : (evens U1s).length = (U1s.length + 1) / 2 := length_evens U1s
  have ho : (odds U1s).length = U1s.length / 2 := length_odds U1s
  have hadd : npAdd (evens U1s) (odds U1s) = none := by
    rw [npAdd, if_neg (by omega), if_neg (by omega), if_neg (by omega)]
  simp [double_increments, hadd]

/-- Witness for the amended C6: five fine intervals make the coarsening fail. -/
theorem double_increments_odd_fails_witness :
    ([(1 : ℝ), 1, 1, 1, 1].length % 2 = 1) ∧ (5 ≤ [(1 : ℝ), 1, 1, 1, 1].length) ∧
    double_increments (gridT 6) [1, 1, 1, 1, 1] (some [1, 1, 1, 1, 1]) = none :=
  ⟨rfl, by decide,
    double_increments_odd_fails (gridT 6) [1, 1, 1, 1, 1] (some [1, 1, 1, 1, 1]) rfl
      (by decide)⟩

/-- Counterexample to C6 as stated: with five fine intervals (odd),
`double_increments` does not return coarsened output built from the remaining
pairs — the broadcast of slices of lengths 3 and 2 raises, modelled `none`. -/
theorem double_increments_odd_counterexample :
    double_increments (gridT 6) [(1 : ℝ), 1, 1, 1, 1] (some [1, 1, 1, 1, 1]) = none := rfl

/-- `np.dot` of a row vector with a column vector: a scalar. -/
noncomputable def dot {d : ℕ} (v w : Fin d → ℝ) : ℝ := ∑ i, v i * w i

/-- `np.dot` of a matrix with a column vector. -/
noncomputable def mulVec {d : ℕ} (M : Fin d → Fin d → ℝ) (v : Fin d → ℝ) : Fin d → ℝ :=
  fun i => ∑ j, M i j * v j

/-- `integrate.b_dx_b`, transcribed from the source:
`(np.dot(k_T_G, rho) + 2*k_rho_dot**2)*rho + np.dot(G2 + 2*k_rho_dot*G, rho)`
with `k_rho_dot = np.dot(k_T, rho)`. -/
noncomputable def b_dx_b {d : ℕ} (G2 : Fin d → Fin d → ℝ) (k_T_G : Fin d → ℝ)
    (G : Fin d → Fin d → ℝ) (k_T : Fin d → ℝ) (rho : Fin d → ℝ) : Fin d → ℝ :=
  let k_rho_dot := dot k_T rho
  fun i => (dot k_T_G rho + 2 * k_rho_dot ^ 2) * rho i +
    mulVec (fun p q => G2 p q + 2 * k_rho_dot * G p q) rho i

/-- `integrate.b_dx_a`, transcribed from the source:
`np.dot(QG + np.dot(k_T, rho)*Q, rho)`. -/
noncomputable def b_dx_a {d : ℕ} (QG : Fin d → Fin d → ℝ) (k_T : Fin d → ℝ)
    (Q : Fin d → Fin d → ℝ) (rho : Fin d → ℝ) : Fin d → ℝ :=
  mulVec (fun p q => QG p q + dot k_T rho * Q p q) rho

/-- `integrate.a_dx_b`, transcribed from the source:
`np.dot(GQ + np.dot(k_T, rho)*Q, rho) + np.dot(k_T_Q, rho)`.  The second
summand is a scalar, which numpy broadcasting adds to every component of the
first. -/
noncomputable def a_dx_b {d : ℕ} (GQ : Fin d → Fin d → ℝ) (k_T : Fin d → ℝ)
    (Q : Fin d → Fin d → ℝ) (k_T_Q : Fin d → ℝ) (rho : Fin d → ℝ) : Fin d → ℝ :=
  fun i => mulVec (fun p q => GQ p q + dot k_T rho * Q p q) rho i + dot k_T_Q rho

/-- `integrate.a_dx_a`, transcribed from the source: `np.dot(Q2, rho)`. -/
noncomputable def a_dx_a {d : ℕ} (Q2 : Fin d → Fin d → ℝ) (rho : Fin d → ℝ) : Fin d → ℝ :=
  mulVec Q2 rho

/-- `integrate.b_dx_b_dx_b`, transcribed from the source:
`np.dot(G3 + 3*k_rho_dot*G2 + 3*(k_T_G_rho_dot + 2*k_rho_dot)*G, rho)
 + (k_T_G2_rho_dot + 6*k_rho_dot*k_T_G_rho_dot + 6*k_rho_dot**3)*rho`. -/
noncomputable def b_dx_b_dx_b {d : ℕ} (G3 G2 G : Fin d → Fin d → ℝ)
    (k_T k_T_G k_T_G2 : Fin d → ℝ) (rho : Fin d → ℝ) : Fin d → ℝ :=
  let k_rho_dot := dot k_T rho
  let k_T_G_rho_dot := dot k_T_G rho
  let k_T_G2_rho_dot := dot k_T_G2 rho
  fun i => mulVec (fun p q => G3 p q + 3 * k_rho_dot * G2 p q +
      3 * (k_T_G_rho_dot + 2 * k_rho_dot) * G p q) rho i +
    (k_T_G2_rho_dot + 6 * k_rho_dot * k_T_G_rho_dot + 6 * k_rho_dot ^ 3) * rho i

/-- The closed form the specification asserts for `(b·∇)b`:
`((kᵀGρ) + 2(kᵀρ)²)ρ + G²ρ + 2(kᵀρ)Gρ`. -/
noncomputable def b_dx_b_claim {d : ℕ} (G2 : Fin d → Fin d → ℝ) (k_T_G : Fin d → ℝ)
    (G : Fin d → Fin d → ℝ) (k_T : Fin d → ℝ) (rho : Fin d → ℝ) : Fin d → ℝ :=
  fun i => (dot k_T_G rho + 2 * dot k_T rho ^ 2) * rho i + mulVec G2 rho i +
    2 * dot k_T rho * mulVec G rho i

/-- The closed form the specification asserts for `(a·∇)b`:
`GQρ + (kᵀρ)Qρ + (kᵀQρ)·ρ`. -/
noncomputable def a_dx_b_claim {d : ℕ} (GQ : Fin d → Fin d → ℝ) (k_T : Fin d → ℝ)
    (Q : Fin d → Fin d → ℝ) (k_T_Q : Fin d → ℝ) (rho : Fin d → ℝ) : Fin d → ℝ :=
  fun i => mulVec GQ rho i + dot k_T rho * mulVec Q rho i + dot k_T_Q rho * rho i

/-- The closed form the specification asserts for `(b·∇)²b`:
`G³ρ + 3(kᵀρ)G²ρ + 3((kᵀGρ) + 2(kᵀρ)²)Gρ
 + ((kᵀG²ρ) + 6(kᵀρ)(kᵀGρ) + 6(kᵀρ)³)ρ`. -/
noncomputable def b_dx_b_dx_b_claim {d : ℕ} (G3 G2 G : Fin d → Fin d → ℝ)
    (k_T k_T_G k_T_G2 : Fin d → ℝ) (rho : Fin d → ℝ) : Fin d → ℝ :=
  fun i => mulVec G3 rho i + 3 * dot k_T rho * mulVec G2 rho i +
    3 * (dot k_T_G rho + 2 * dot k_T rho ^ 2) * mulVec G rho i +
    (dot k_T_G2 rho + 6 * dot k_T rho * dot k_T_G rho + 6 * dot k_T rho ^ 3) * rho i

theorem mulVec_add_smul {d : ℕ} (A B : Fin d → Fin d → ℝ) (c : ℝ) (v : Fin d → ℝ)
    (i : Fin d) :
    mulVec (fun p q => A p q + c * B p q) v i = mulVec A v i + c * mulVec B v i := by
  simp only [mulVec, add_mul, mul_assoc]
  rw [Finset.sum_add_distrib, ← Finset.mul_sum]

theorem mulVec_add_smul₂ {d : ℕ} (A B C : Fin d → Fin d → ℝ) (b c : ℝ) (v : Fin d → ℝ)
    (i : Fin d) :
    mulVec (fun p q => A p q + b * B p q + c * C p q) v i =
      mulVec A v i + b * mulVec B v i + c * mulVec C v i := by
  simp only [mulVec, add_mul, mul_assoc]
  rw [Finset.sum_add_distrib, Finset.sum_add_distrib, ← Finset.mul_sum, ← Finset.mul_sum]

/-- Claim C5: `b_dx_b` returns exactly the closed form
`((kᵀGρ) + 2(kᵀρ)²)ρ + G²ρ + 2(kᵀρ)Gρ` — the directional derivative `(b·∇)b`
of the diffusion field `b(ρ) = (kᵀρ)ρ + Gρ` — with no approximation. -/
theorem b_dx_b_correct {d : ℕ} (G2 : Fin d → Fin d → ℝ) (k_T_G : Fin d → ℝ)
    (G : Fin d → Fin d → ℝ) (k_T : Fin d → ℝ) (rho : Fin d → ℝ) :
    b_dx_b G2 k_T_G G k_T rho = b_dx_b_claim G2 k_T_G G k_T rho := by
  funext i
  simp only [b_dx_b, b_dx_b_claim]
  rw [mulVec_add_smul G2 G (2 * dot k_T rho) rho i]
  ring

/-- Claim C3 refuted on the code: at `d = 1` with all matrices and `k` equal
to `1` and `ρ = 2`, the code's `b_dx_b_dx_b` returns `198` in each component
while the specified (and mathematically correct) closed form gives `222`:
line 95 of `integrate.py` uses `2*k_rho_dot` where the expansion of `(b·∇)²b`
requires `2*k_rho_dot**2`. -/
theorem b_dx_b_dx_b_code_bug :
    b_dx_b_dx_b (d := 1) (fun _ _ => 1) (fun _ _ => 1) (fun _ _ => 1) (fun _ => 1)
      (fun _ => 1) (fun _ => 1) (fun _ => 2) = (fun _ => 198) ∧
    b_dx_b_dx_b_claim (d := 1) (fun _ _ => 1) (fun _ _ => 1) (fun _ _ => 1) (fun _ => 1)
      (fun _ => 1) (fun _ => 1) (fun _ => 2) = (fun _ => 222) ∧
    b_dx_b_dx_b (d := 1) (fun _ _ => 1) (fun _ _ => 1) (fun _ _ => 1) (fun _ => 1)
      (fun _ => 1) (fun _ => 1) (fun _ => 2) ≠
      b_dx_b_dx_b_claim (d := 1) (fun _ _ => 1) (fun _ _ => 1) (fun _ _ => 1) (fun _ => 1)
        (fun _ => 1) (fun _ => 1) (fun _ => 2) := by
  refine ⟨?_, ?_, ?_⟩
  · funext i
    norm_num [b_dx_b_dx_b, mulVec, dot, Fin.sum_univ_one]
  · funext i
    norm_num [b_dx_b_dx_b_claim, mulVec, dot, Fin.sum_univ_one]
  · intro h
    have hi := congrFun h 0
    norm_num [b_dx_b_dx_b, b_dx_b_dx_b_claim, mulVec, dot, Fin.sum_univ_one] at hi

/-- Claim C4 refuted on the code: at `d = 1` with `GQ = Q = 1`, `k = kᵀQ = 1`
and `ρ = 2`, the code's `a_dx_b` returns `8` in each component while the
specified (and mathematically correct) `GQρ + (kᵀρ)Qρ + (kᵀQρ)ρ` gives `10`:
line 61 of `integrate.py` adds the scalar `np.dot(k_T_Q, rho)` itself (numpy
broadcasts it over the components) instead of multiplying it onto `ρ`. -/
theorem a_dx_b_code_bug :
    a_dx_b (d := 1) (fun _ _ => 1) (fun _ => 1) (fun _ _ => 1) (fun _ => 1)
      (fun _ => 2) = (fun _ => 8) ∧
    a_dx_b_claim (d := 1) (fun _ _ => 1) (fun _ => 1) (fun _ _ => 1) (fun _ => 1)
      (fun _ => 2) = (fun _ => 10) ∧
    a_dx_b (d := 1) (fun _ _ => 1) (fun _ => 1) (fun _ _ => 1) (fun _ => 1)
      (fun _ => 2) ≠
      a_dx_b_claim (d := 1) (fun _ _ => 1) (fun _ => 1) (fun _ _ => 1) (fun _ => 1)
        (fun _ => 2) := by
  refine ⟨?_, ?_, ?_⟩
  · funext i
    norm_num [a_dx_b, mulVec, dot, Fin.sum_univ_one]
  · funext i
    norm_num [a_dx_b_claim, mulVec, dot, Fin.sum_univ_one]
  · intro h
    have hi := congrFun h 0
    norm_num [a_dx_b, a_dx_b_claim, mulVec, dot, Fin.sum_univ_one] at hi

/-- One parameter of a Python callable: its name and whether it carries the
default value `None`. -/
structure PyParam where
  pname : String
  defaultsToNone : Bool
deriving DecidableEq

/-- The uniform integrator contract of the spec:
`integrate(rho_0, times, U1s=None, U2s=None)` (`self` omitted). -/
def uniform_integrate_contract : List PyParam :=
  [⟨"rho_0", false⟩, ⟨"times", false⟩, ⟨"U1s", true⟩, ⟨"U2s", true⟩]

/-- Parameters of the plain function `integrate.uncond_vac_integrate`
(src line 99): `rho_0, c_op, basis, times`. -/
def uncond_vac_integrate_params : List PyParam :=
  [⟨"rho_0", false⟩, ⟨"c_op", false⟩, ⟨"basis", false⟩, ⟨"times", false⟩]

/-- Parameters of the plain function `integrate.uncond_gauss_integrate`
(src line 124): `rho_0, c_op, M_sq, N, H, basis, times`. -/
def uncond_gauss_integrate_params : List PyParam :=
  [⟨"rho_0", false⟩, ⟨"c_op", false⟩, ⟨"M_sq", false⟩, ⟨"N", false⟩, ⟨"H", false⟩,
    ⟨"basis", false⟩, ⟨"times", false⟩]

/-- Parameters of `Taylor_1_5_HomodyneIntegrator.integrate` (src line 221,
`self` omitted): `rho_0, times, U1s=None, U2s=None`. -/
def Taylor_1_5_HomodyneIntegrator_integrate_params : List PyParam :=
  [⟨"rho_0", false⟩, ⟨"times", false⟩, ⟨"U1s", true⟩, ⟨"U2s", true⟩]

/-- Parameters of `MilsteinHomodyneIntegrator.integrate` (src line 299,
`self` omitted): `rho_0, times, U1s=None, U2s=None`. -/
def MilsteinHomodyneIntegrator_integrate_params : List PyParam :=
  [⟨"rho_0", false⟩, ⟨"times", false⟩, ⟨"U1s", true⟩, ⟨"U2s", true⟩]

/-- Parameters of `FaultyMilsteinHomodyneIntegrator.integrate` (src line 330,
`self` omitted): `rho_0, times, U1s=None, U2s=None`. -/
def FaultyMilsteinHomodyneIntegrator_integrate_params : List PyParam :=
  [⟨"rho_0", false⟩, ⟨"times", false⟩, ⟨"U1s", true⟩, ⟨"U2s", true⟩]

/-- Counterexample to C9: the unconditional vacuum integrator is a plain
function `uncond_vac_integrate(rho_0, c_op, basis, times)`; it does not
expose the uniform `integrate(rho_0, times, U1s=None, U2s=None)` contract,
so not every integrator variant does. -/
theorem uncond_vac_not_uniform_contract :
    uncond_vac_integrate_params ≠ uniform_integrate_contract := by decide

/-- Claim C9 (amended): the three conditional homodyne integrator classes
expose the uniform `integrate(rho_0, times, U1s=None, U2s=None)` contract
with accepted (possibly unused) noise arguments, while the unconditional
vacuum and Gaussian integrators are plain functions over physical parameters
with no noise arguments and a different signature. -/
theorem integrate_contract_classification :
    MilsteinHomodyneIntegrator_integrate_params = uniform_integrate_contract ∧
    Taylor_1_5_HomodyneIntegrator_integrate_params = uniform_integrate_contract ∧
    FaultyMilsteinHomodyneIntegrator_integrate_params = uniform_integrate_contract ∧
    uncond_vac_integrate_params ≠ uniform_integrate_contract ∧
    uncond_gauss_integrate_params ≠ uniform_integrate_contract := by decide

/-- Modelled from the spec: the Milstein update step of §4.3
(`pysme.sde.milstein` is not under `src/`):
`ρ_{n+1} = ρ_n + a(ρ_n)Δt + b(ρ_n)ΔW + (1/2)(b·∇b)(ρ_n)(ΔW² − Δt)` with
`ΔW = ΔU1·√Δt`. -/
noncomputable def milstein_step {d : ℕ} (a b bdb : (Fin d → ℝ) → Fin d → ℝ)
    (rho : Fin d → ℝ) (dt dU1 : ℝ) : Fin d → ℝ :=
  fun i => rho i + a rho i * dt + b rho i * (dU1 * Real.sqrt dt) +
    bdb rho i * ((dU1 * Real.sqrt dt) ^ 2 - dt) / 2

/-- Modelled from the spec: the Milstein driver of §4.3 (`pysme.sde.milstein`
is not under `src/`): advance over the whole time grid, one step per interval
and per `U1` sample, the returned trajectory starting with the initial state. -/
noncomputable def milstein {d : ℕ} (a b bdb : (Fin d → ℝ) → Fin d → ℝ) :
    (Fin d → ℝ) → List ℝ → List ℝ → List (Fin d → ℝ)
  | rho0, t1 :: t2 :: ts, u :: us =>
    rho0 :: milstein a b bdb (milstein_step a b bdb rho0 (t2 - t1) u) (t2 :: ts) us
  | rho0, _, _ => [rho0]

/-- `integrate.MilsteinHomodyneIntegrator`: carries the operator matrices `Q`,
`G` and row vector `k_T` that its constructor precomputes from the physical
parameters through the external `system_builder` collaborator (out of scope
per the spec), plus the external vectorisation of initial states (modelled
from the spec: `vectorize` is not under `src/`). -/
structure MilsteinHomodyneIntegrator (σ : Type) (d : ℕ) where
  Q : Fin d → Fin d → ℝ
  G : Fin d → Fin d → ℝ
  k_T : Fin d → ℝ
  vecize : σ → Fin d → ℝ

/-- The constructor's precomputed `self.k_T_G = np.dot(k_T, G)`. -/
noncomputable def MilsteinHomodyneIntegrator.k_T_G {σ : Type} {d : ℕ}
    (I : MilsteinHomodyneIntegrator σ d) : Fin d → ℝ :=
  fun j => ∑ p, I.k_T p * I.G p j

/-- The constructor's precomputed `self.G2 = np.dot(G, G)`. -/
noncomputable def MilsteinHomodyneIntegrator.G2 {σ : Type} {d : ℕ}
    (I : MilsteinHomodyneIntegrator σ d) : Fin d → Fin d → ℝ :=
  fun i j => ∑ p, I.G i p * I.G p j

/-- `MilsteinHomodyneIntegrator.a_fn`: the drift `Qρ`. -/
noncomputable def MilsteinHomodyneIntegrator.a_fn {σ : Type} {d : ℕ}
    (I : MilsteinHomodyneIntegrator σ d) (rho : Fin d → ℝ) : Fin d → ℝ :=
  mulVec I.Q rho

/-- `MilsteinHomodyneIntegrator.b_fn`: the diffusion `(kᵀρ)ρ + Gρ`. -/
noncomputable def MilsteinHomodyneIntegrator.b_fn {σ : Type} {d : ℕ}
    (I : MilsteinHomodyneIntegrator σ d) (rho : Fin d → ℝ) : Fin d → ℝ :=
  fun i => dot I.k_T rho * rho i + mulVec I.G rho i

/-- `MilsteinHomodyneIntegrator.b_dx_b_fn`: delegates to `b_dx_b` on the
precomputed matrices. -/
noncomputable def MilsteinHomodyneIntegrator.b_dx_b_fn {σ : Type} {d : ℕ}
    (I : MilsteinHomodyneIntegrator σ d) (rho : Fin d → ℝ) : Fin d → ℝ :=
  b_dx_b I.G2 I.k_T_G I.G I.k_T rho

/-- `MilsteinHomodyneIntegrator.integrate` on supplied `U1s` (src lines
299–326): vectorise the initial state and run the Milstein driver.  The
`U2s` argument is accepted but never read by the body. -/
noncomputable def MilsteinHomodyneIntegrator.integrate {σ : Type} {d : ℕ}
    (I : MilsteinHomodyneIntegrator σ d) (rho_0 : σ) (times : List ℝ)
    (U1s : List ℝ) (_U2s : Option (List ℝ)) : List (Fin d → ℝ) :=
  milstein I.a_fn I.b_fn I.b_dx_b_fn (I.vecize rho_0) times U1s

/-- Claim C10: `MilsteinHomodyneIntegrator.integrate` does not depend on its
`U2s` argument — for every integrator, initial state, time grid and supplied
`U1s`, any two values of `U2s` (including `None`) give identical
trajectories. -/
theorem milstein_integrate_U2s_irrelevant {σ : Type} {d : ℕ}
    (I : MilsteinHomodyneIntegrator σ d) (rho_0 : σ) (times U1s : List ℝ)
    (U2s U2s' : Option (List ℝ)) :
    I.integrate rho_0 times U1s U2s = I.integrate rho_0 times U1s U2s' := rfl

end PySME
